import Mathlib

/-!
Verification development for the `easytags` tag-rewriting tool
(`easytags.go`).  The program's strings are Go rune sequences; we embed
them as `List Nat` of Unicode code points (Go runes are integers).  The
program only manipulates ASCII tag/identifier text, so the `unicode`
predicates are embedded by their ASCII fragment, stated explicitly below.
-/

namespace Easytags

/-- Code points of a Lean string literal, used to write concrete runes. -/
def str (s : String) : List Nat := s.data.map Char.toNat

/-- Embeds `unicode.IsUpper` (ASCII fragment: 'A'..'Z'). -/
def rIsUpper (c : Nat) : Bool := decide (65 ≤ c ∧ c ≤ 90)

/-- Embeds `unicode.IsLower` (ASCII fragment: 'a'..'z'). -/
def rIsLower (c : Nat) : Bool := decide (97 ≤ c ∧ c ≤ 122)

/-- Embeds `unicode.ToLower` (ASCII fragment). -/
def rToLower (c : Nat) : Nat := if rIsUpper c then c + 32 else c

/-- Embeds `unicode.ToUpper` (ASCII fragment). -/
def rToUpper (c : Nat) : Nat := if rIsLower c then c - 32 else c

/-- Embeds `unicode.IsSpace` (the space runes of the Latin-1 range, as in
Go's `unicode.IsSpace`: '\t' '\n' '\v' '\f' '\r' ' ' U+0085 U+00A0). -/
def rIsSpace (c : Nat) : Bool :=
  decide (c = 9 ∨ c = 10 ∨ c = 11 ∨ c = 12 ∨ c = 13 ∨ c = 32 ∨ c = 133 ∨ c = 160)

/-- The separator test of `ToSnake`'s loop (`easytags.go:207`):
`i > 0 && IsUpper(runes[i]) && ((i+1 < length && IsLower(runes[i+1])) ||
IsLower(runes[i-1]))`, with `prev = runes[i-1]` (`none` at `i = 0`) and
`cs` the runes after position `i`. -/
def snakeSep (prev : Option Nat) (c : Nat) (cs : List Nat) : Bool :=
  match prev with
  | none => false
  | some p =>
    rIsUpper c &&
      ((match cs with | d :: _ => rIsLower d | [] => false) || rIsLower p)

/-- Helper for `ToSnake` (`easytags.go:201`): the loop body carries the
previous rune. -/
def snakeAux : Option Nat → List Nat → List Nat
  | _, [] => []
  | prev, c :: cs =>
    if snakeSep prev c cs then 95 :: rToLower c :: snakeAux (some c) cs
    else rToLower c :: snakeAux (some c) cs

/-- Embeds `ToSnake` (`easytags.go:201-213`): insert '_' (code 95) before an
upper-case rune that is followed by a lower-case rune or preceded by a
lower-case rune; lower-case every rune. -/
def ToSnake (l : List Nat) : List Nat := snakeAux none l

/-- The first loop of `ToCamel` (`easytags.go:221-226`): lower-case runes
until the first lower-case rune (exclusive). -/
def camelLower : List Nat → List Nat
  | [] => []
  | c :: cs => if rIsLower c then c :: cs else rToLower c :: camelLower cs

/-- The index `i` left by `ToCamel`'s first loop: position of the first
lower-case rune (the length when there is none). -/
def firstLowerIdx : List Nat → Nat
  | [] => 0
  | c :: cs => if rIsLower c then 0 else firstLowerIdx cs + 1

/-- `runes[n] = unicode.ToUpper(runes[n])` on a rune list. -/
def mapUpperAt : Nat → List Nat → List Nat
  | _, [] => []
  | 0, c :: cs => rToUpper c :: cs
  | n + 1, c :: cs => c :: mapUpperAt n cs

/-- Embeds `ToCamel` (`easytags.go:216-232`).  When `i = 0` and the branch
is taken (input begins with a lower-case rune) the Go source executes
`runes[-1]`, a panic; that case is embedded as `[]` and is unreachable for
the exported field names the program feeds in. -/
def ToCamel (l : List Nat) : List Nat :=
  if firstLowerIdx l ≠ 1 ∧ firstLowerIdx l ≠ l.length then
    if firstLowerIdx l = 0 then []
    else mapUpperAt (firstLowerIdx l - 1) (camelLower l)
  else camelLower l

/-- Embeds `TagOpt` (`easytags.go:37-40`). -/
structure TagOpt where
  Tag : List Nat
  Case : List Nat
deriving DecidableEq

/-- The constant `case_snake` (`easytags.go:21`). -/
def case_snake : List Nat := str "snake"

/-- The constant `case_camel` (`easytags.go:20`). -/
def case_camel : List Nat := str "camel"

/-- The constant `case_pascal` (`easytags.go:22`). -/
def case_pascal : List Nat := str "pascal"

/-- `stripPre p l = some r` iff `l = p ++ r`: prefix matching used by the
embedded regex test. -/
def stripPre : List Nat → List Nat → Option (List Nat)
  | [], l => some l
  | _ :: _, [] => none
  | a :: as, b :: bs => if a = b then stripPre as bs else none

/-- After `name:"` the regex `[^"]+"` matches iff the next rune is not '"'
(code 34) and some later rune is '"'. -/
def hasQuotedValue : List Nat → Bool
  | [] => false
  | c :: cs => !(decide (c = 34)) && cs.contains 34

/-- The regex `name:"[^"]+"` of `parseTags` (`easytags.go:137`) matches at
the head of `l`. -/
def tagPatMatch (name l : List Nat) : Bool :=
  match stripPre name l with
  | none => false
  | some r =>
    match r with
    | 58 :: 34 :: rest => hasQuotedValue rest
    | _ => false

/-- `existingTagReg.FindString(raw) != ""` (`easytags.go:137-139`): the
unanchored search for `name:"[^"]+"` anywhere in `raw`. -/
def existsTagIn (name : List Nat) : List Nat → Bool
  | [] => false
  | c :: cs => tagPatMatch name (c :: cs) || existsTagIn name cs

/-- Side condition of the amended claim C10: the tag name occurs in the raw
tag only with empty values — at every position where `name:"` (codes 58,
34) matches, the next rune is the closing '"' (or the text ends).  Under
this condition the regex `name:"[^"]+"` can match nowhere
(`emptyValueOnly_no_match` below). -/
def emptyValueOnly (name : List Nat) : List Nat → Bool
  | [] => true
  | c :: cs =>
    (match stripPre name (c :: cs) with
     | some (58 :: 34 :: rest) =>
       match rest with
       | [] => true
       | r :: _ => decide (r = 34)
     | _ => true) && emptyValueOnly name cs

/-- Word chunks used by `goFields`; whitespace runes start a new (possibly
empty) chunk. -/
def chunksWs (l : List Nat) : List (List Nat) :=
  l.foldr
    (fun c acc =>
      if rIsSpace c then [] :: acc
      else
        match acc with
        | [] => [[c]]
        | w :: ws => (c :: w) :: ws)
    []

/-- Drops the empty chunks, leaving the maximal non-whitespace runs. -/
def dropEmpties : List (List Nat) → List (List Nat)
  | [] => []
  | w :: ws => if w = [] then dropEmpties ws else w :: dropEmpties ws

/-- Embeds `strings.Fields` (`easytags.go:163`): maximal runs of
non-whitespace runes. -/
def goFields (l : List Nat) : List (List Nat) :=
  dropEmpties (chunksWs l)

/-- Removes leading '`' runes (code 96). -/
def trimLeadTicks : List Nat → List Nat
  | [] => []
  | c :: cs => if c = 96 then trimLeadTicks cs else c :: cs

/-- Embeds ``strings.Trim(v, "`")`` (`easytags.go:163`): removes leading and
trailing '`' runes. -/
def trimTicks (l : List Nat) : List Nat :=
  trimLeadTicks ((trimLeadTicks l.reverse).reverse)

/-- Embeds `strings.Join(l, " ")` (`easytags.go:168`). -/
def joinSpace : List (List Nat) → List Nat
  | [] => []
  | [w] => w
  | w :: ws => w ++ 32 :: joinSpace ws

/-- The `switch tag.Case` of `parseTags` (`easytags.go:141-150`): the
generated name, `""` in the `default` branch (Go leaves `name` at its zero
value there). -/
def caseName (fieldName : List Nat) (c : List Nat) : List Nat :=
  if c = case_snake then ToSnake fieldName
  else if c = case_camel then ToCamel fieldName
  else if c = case_pascal then fieldName
  else []

/-- The `fmt.Sprintf` templates of `parseTags` (`easytags.go:151-157`):
`name:"value"`, or `name:"value,omitempty"` when the omitempty flag is set
(codes 58 ':', 34 '"'). -/
def goFmtSegment (tagName value : List Nat) (om : Bool) : List Nat :=
  tagName ++ 58 :: 34 :: value ++ (if om then str ",omitempty" else []) ++ [34]

/-- The `tagValues` list built by the loop of `parseTags`
(`easytags.go:135-162`): one formatted segment per request whose name the
regex does not already find in the raw tag, in request order. -/
def tagValuesList (fieldName raw : List Nat) (tags : List TagOpt) (om : Bool) :
    List (List Nat) :=
  tags.filterMap fun t =>
    if existsTagIn t.Tag raw then none
    else some (goFmtSegment t.Tag (caseName fieldName t.Case) om)

/-- `fmt.Printf("Unknown case option ...")` fires for a request exactly when
the regex finds nothing and the case falls to the `default` branch
(`easytags.go:139-150`). -/
def reportsUnknownCase (raw : List Nat) (t : TagOpt) : Bool :=
  !existsTagIn t.Tag raw &&
    !(decide (t.Case = case_snake) || decide (t.Case = case_camel) ||
      decide (t.Case = case_pascal))

/-- Embeds `parseTags` (`easytags.go:132-171`); `fieldName` is
`field.Names[0].String()`, `raw` is `field.Tag.Value`. -/
def parseTags (fieldName raw : List Nat) (tags : List TagOpt) (om : Bool) :
    List Nat :=
  let tagValues := tagValuesList fieldName raw tags om
  let updatedTags := goFields (trimTicks raw)
  let updatedTags :=
    if tagValues.length > 0 then updatedTags ++ tagValues else updatedTags
  96 :: joinSpace updatedTags ++ [96]

/-- Embeds `ast.Field` as used by `processTags`: the identifier list and the
optional tag literal (`none` embeds a nil `field.Tag`). -/
structure GoField where
  names : List (List Nat)
  tag : Option (List Nat)
deriving DecidableEq

/-- Embeds the per-field body of `processTags` (`easytags.go:174-195`):
skip unnamed fields and fields whose first rune is not upper-case; clear
the tag under `remove`; a missing tag becomes an empty literal (`Value` of
a fresh `ast.BasicLit` is `""`); assign `parseTags`' result.  (The Go
source reads byte 0 of the name; for the ASCII identifiers in scope that
is the first rune.  An empty identifier would index out of range in Go and
never reaches this code; it is embedded as a skip.) -/
def processField (tags : List TagOpt) (remove om : Bool) (f : GoField) :
    GoField :=
  match f.names with
  | [] => f
  | n :: _ =>
    match n with
    | [] => f
    | c :: _ =>
      if rIsUpper c then
        let t0 : Option (List Nat) := if remove then none else f.tag
        { f with tag := some (parseTags n (t0.getD []) tags om) }
      else f

/-- Embeds `processTags` (`easytags.go:173-196`): rewrite each field of the
struct's field list in place, in order. -/
def processTags (fieldList : List GoField) (tags : List TagOpt)
    (remove om : Bool) : List GoField :=
  fieldList.map (processField tags remove om)

/-- Embeds the shape of the `go/ast` tree as far as the traversal of
`GenerateTags` observes it: a node is either a `*ast.StructType` or any
other node kind, each owning an ordered list of children. -/
inductive GoAst where
  | structType : List GoAst → GoAst
  | other : List GoAst → GoAst

mutual

/-- Embeds the `ast.Inspect` call of `GenerateTags` (`easytags.go:107-114`):
the nodes passed to `processTags`, in visit order.  The closure returns
`false` on a `StructType` (so `Inspect` does not descend into it) and
`true` elsewhere (descend into the children). -/
def inspectStructs : GoAst → List GoAst
  | .structType cs => [GoAst.structType cs]
  | .other cs => inspectStructsL cs

/-- `inspectStructs` over a child list, in order. -/
def inspectStructsL : List GoAst → List GoAst
  | [] => []
  | t :: ts => inspectStructs t ++ inspectStructsL ts

end

mutual

/-- All `StructType` nodes of the tree at any nesting depth, in preorder. -/
def allStructs : GoAst → List GoAst
  | .structType cs => GoAst.structType cs :: allStructsL cs
  | .other cs => allStructsL cs

/-- `allStructs` over a child list, in order. -/
def allStructsL : List GoAst → List GoAst
  | [] => []
  | t :: ts => allStructs t ++ allStructsL ts

end

mutual

/-- The `StructType` nodes whose struct-nesting depth (number of enclosing
`StructType` nodes starting from depth `d`) is zero; at `d = 0`, the
struct nodes not nested inside any other struct node. -/
def structsBelow : Nat → GoAst → List GoAst
  | d, .structType cs =>
    (if d = 0 then [GoAst.structType cs] else []) ++ structsBelowL (d + 1) cs
  | d, .other cs => structsBelowL d cs

/-- `structsBelow` over a child list, in order. -/
def structsBelowL : Nat → List GoAst → List GoAst
  | _, [] => []
  | d, t :: ts => structsBelow d t ++ structsBelowL d ts

end

/-- The content of the file at `fileName` after `GenerateTags`
(`easytags.go:95-130`), as a function of which steps succeed.

* parse fails (`parser.ParseFile` error, line 99-102): return before any
  write — the file keeps `orig`.
* parse succeeds: `os.Create(fileName)` (line 117) truncates the file to
  empty **before** serialization.  If `format.Node` (line 124) then fails,
  the function returns without calling `w.Flush()` (line 129), so nothing
  buffered reaches the file (content below `bufio`'s buffer size, the case
  for ordinary source files): the file is left empty.
* both succeed: the file holds the rendered tree `rendered`.

(`os.Create` failure also returns with the file untouched when opening
fails outright; that branch equals the parse-failure one and is omitted
from the parameters.) -/
def generateTagsWrites (parseOk serializeOk : Bool) (orig rendered : List Nat) :
    List Nat :=
  if parseOk = false then orig
  else if serializeOk = false then []
  else rendered

/-- Length of the leading run of upper-case letters (for `camelClaimC8`). -/
def upperRunLen : List Nat → Nat
  | [] => 0
  | c :: cs => if rIsUpper c then upperRunLen cs + 1 else 0

/-- Written from the words of claim C8: lower-case the leading run of
*upper-case letters*; if that run has length 1 or spans the whole
identifier, stop; otherwise re-upper-case the character immediately
*after* the leading run. -/
def camelClaimC8 (l : List Nat) : List Nat :=
  let k := upperRunLen l
  if k = 1 ∨ k = l.length then (l.take k).map rToLower ++ l.drop k
  else (l.take k).map rToLower ++ mapUpperAt 0 (l.drop k)

/-- A rune that can appear in an identifier or tag name as the program
expects them: not whitespace, not '"' (34), not '`' (96). -/
def idRune (c : Nat) : Prop := rIsSpace c = false ∧ c ≠ 34 ∧ c ≠ 96

/-- A well-formed identifier or tag name: non-empty, made of `idRune`s. -/
def goodId (s : List Nat) : Prop := s ≠ [] ∧ ∀ c ∈ s, idRune c

/-- A well-formed tag segment as it sits inside a backtick literal:
non-empty, no whitespace (so `strings.Fields` keeps it whole), no '`'
(a Go raw string literal cannot contain one). -/
def wfSeg (s : List Nat) : Prop :=
  s ≠ [] ∧ ∀ c ∈ s, rIsSpace c = false ∧ c ≠ 96

instance (c : Nat) : Decidable (idRune c) := by
  unfold idRune; infer_instance

instance (s : List Nat) : Decidable (goodId s) := by
  unfold goodId; infer_instance

instance (s : List Nat) : Decidable (wfSeg s) := by
  unfold wfSeg; infer_instance

/-- The amended reading of claim C8, written declaratively: with `i` the
index of the first lower-case rune (the length when there is none),
lower-case the first `i` runes; if `i = 1` or `i` is the whole length,
stop; otherwise the rune at position `i - 1` — the last rune of the
lowered run, the one immediately before the first lower-case rune — is
re-upper-cased. -/
def camelRunAmended (l : List Nat) : List Nat :=
  let i := firstLowerIdx l
  if i = 1 ∨ i = l.length then (l.take i).map rToLower ++ l.drop i
  else
    (l.take (i - 1)).map rToLower ++
      rToUpper (rToLower (l.getD (i - 1) 0)) :: l.drop i


/-! ### Lemmas about the embedded string plumbing -/

theorem chunksWs_cons (c : Nat) (l : List Nat) :
    chunksWs (c :: l) =
      if rIsSpace c then [] :: chunksWs l
      else
        match chunksWs l with
        | [] => [[c]]
        | w :: ws => (c :: w) :: ws := by
  simp [chunksWs]

theorem chunksWs_word_cons (w l : List Nat) (hw : ∀ c ∈ w, rIsSpace c = false) :
    chunksWs (w ++ 32 :: l) = w :: chunksWs l := by
  induction w with
  | nil =>
    have h32 : rIsSpace 32 = true := by decide
    simp [chunksWs_cons, h32]
  | cons c w ih =>
    have hc : rIsSpace c = false := hw c (by simp)
    have ih' := ih (fun x hx => hw x (by simp [hx]))
    simp [chunksWs_cons, hc, ih']

theorem chunksWs_word (w : List Nat) (hw : ∀ c ∈ w, rIsSpace c = false)
    (hne : w ≠ []) : chunksWs w = [w] := by
  induction w with
  | nil => simp at hne
  | cons c w ih =>
    have hc : rIsSpace c = false := hw c (by simp)
    cases w with
    | nil => simp [chunksWs_cons, chunksWs, hc]
    | cons d w' =>
      have := ih (fun x hx => hw x (by simp [hx])) (by simp)
      simp [chunksWs_cons, hc, this]

theorem fields_join (segs : List (List Nat))
    (h : ∀ s ∈ segs, s ≠ [] ∧ ∀ c ∈ s, rIsSpace c = false) :
    goFields (joinSpace segs) = segs := by
  induction segs with
  | nil => simp [goFields, joinSpace, chunksWs, dropEmpties]
  | cons w ws ih =>
    obtain ⟨hwne, hwc⟩ := h w (by simp)
    cases ws with
    | nil =>
      simp only [joinSpace, goFields]
      rw [chunksWs_word w hwc hwne]
      simp [dropEmpties, hwne]
    | cons v vs =>
      have ih' := ih (fun s hs => h s (by simp [hs]))
      show goFields (w ++ 32 :: joinSpace (v :: vs)) = _
      simp only [goFields] at ih' ⊢
      rw [chunksWs_word_cons w _ hwc]
      simp [dropEmpties, hwne, ih']

theorem trim_wrap (body : List Nat) (h : ∀ c ∈ body, c ≠ 96) :
    trimTicks (96 :: body ++ [96]) = body := by
  unfold trimTicks
  rcases hb : body.reverse with _ | ⟨x, xs⟩
  · have : body = [] := by simpa using congrArg List.reverse hb
    subst this
    simp [trimLeadTicks]
  · have hxb : x ∈ body := by
      have : x ∈ body.reverse := by simp [hb]
      simpa using this
    have hx : x ≠ 96 := h x hxb
    have h1 : (96 :: body ++ [96]).reverse = 96 :: (x :: xs) ++ [96] := by
      simp [List.reverse_append, hb]
    rw [h1]
    have h2 : trimLeadTicks (96 :: (x :: xs) ++ [96]) = x :: (xs ++ [96]) := by
      show trimLeadTicks (96 :: (x :: xs ++ [96])) = _
      simp [trimLeadTicks, hx]
    rw [h2]
    have h3 : (x :: (xs ++ [96])).reverse = 96 :: (x :: xs).reverse := by
      simp
    rw [h3]
    have h4 : (x :: xs).reverse = body := by
      have := congrArg List.reverse hb
      simpa using this.symm
    rw [h4]
    show trimLeadTicks (96 :: body) = body
    rcases hbod : body with _ | ⟨b, bs⟩
    · simp [trimLeadTicks]
    · have hbne : b ≠ 96 := h b (by simp [hbod])
      simp [trimLeadTicks, hbne]

theorem parseTags_eq (fn raw : List Nat) (tags : List TagOpt) (om : Bool) :
    parseTags fn raw tags om =
      96 :: joinSpace (goFields (trimTicks raw) ++ tagValuesList fn raw tags om)
        ++ [96] := by
  unfold parseTags
  by_cases h : tagValuesList fn raw tags om = []
  · simp [h]
  · have : (tagValuesList fn raw tags om).length > 0 := by
      cases hl : tagValuesList fn raw tags om with
      | nil => exact absurd hl h
      | cons a as => simp
    simp [this]

theorem stripPre_eq_some (p l r : List Nat) :
    stripPre p l = some r ↔ l = p ++ r := by
  induction p generalizing l with
  | nil => simp [stripPre]
  | cons a as ih =>
    cases l with
    | nil => simp [stripPre]
    | cons b bs =>
      by_cases hab : a = b
      · subst hab
        simp [stripPre, ih]
      · simp [stripPre, hab, Ne.symm hab]

theorem mem_split_first (cs : List Nat) (h : cs.contains 34 = true) :
    ∃ l1 l2, cs = l1 ++ 34 :: l2 ∧ ∀ c ∈ l1, c ≠ 34 := by
  induction cs with
  | nil => simp [List.contains] at h
  | cons c cs ih =>
    by_cases hc : c = 34
    · exact ⟨[], cs, by simp [hc], by simp⟩
    · have hm : (34 : Nat) ∈ c :: cs := by simpa [List.contains] using h
      have h' : cs.contains 34 = true := by
        rcases List.mem_cons.mp hm with h34 | hm'
        · exact absurd h34.symm hc
        · simpa [List.contains] using hm'
      obtain ⟨l1, l2, heq, hl1⟩ := ih h'
      exact ⟨c :: l1, l2, by simp [heq], by
        intro x hx
        rcases List.mem_cons.mp hx with rfl | hx
        · exact hc
        · exact hl1 x hx⟩

theorem hasQuotedValue_iff (r : List Nat) :
    hasQuotedValue r = true ↔
      ∃ v suf, r = v ++ 34 :: suf ∧ v ≠ [] ∧ ∀ c ∈ v, c ≠ 34 := by
  constructor
  · intro h
    cases r with
    | nil => simp [hasQuotedValue] at h
    | cons c cs =>
      simp only [hasQuotedValue, Bool.and_eq_true, Bool.not_eq_true',
        decide_eq_false_iff_not] at h
      obtain ⟨hc, hmem⟩ := h
      obtain ⟨l1, l2, heq, hl1⟩ := mem_split_first cs hmem
      refine ⟨c :: l1, l2, by simp [heq], by simp, ?_⟩
      intro x hx
      rcases List.mem_cons.mp hx with rfl | hx
      · exact hc
      · exact hl1 x hx
  · rintro ⟨v, suf, rfl, hv, hvq⟩
    cases v with
    | nil => simp at hv
    | cons c cs =>
      simp only [hasQuotedValue, List.cons_append, Bool.and_eq_true,
        Bool.not_eq_true', decide_eq_false_iff_not]
      refine ⟨hvq c (by simp), ?_⟩
      simp [List.contains]

theorem tagPatMatch_iff (name l : List Nat) :
    tagPatMatch name l = true ↔
      ∃ v suf, l = name ++ 58 :: 34 :: v ++ 34 :: suf ∧ v ≠ [] ∧
        ∀ c ∈ v, c ≠ 34 := by
  constructor
  · intro h
    unfold tagPatMatch at h
    split at h
    · simp at h
    · rename_i r hs
      split at h
      · rename_i rest
        have hl : l = name ++ 58 :: 34 :: rest :=
          (stripPre_eq_some name l _).mp hs
        obtain ⟨v, suf, hrest, hv, hvq⟩ := (hasQuotedValue_iff rest).mp h
        exact ⟨v, suf, by simp [hl, hrest], hv, hvq⟩
      · simp at h
  · rintro ⟨v, suf, rfl, hv, hvq⟩
    unfold tagPatMatch
    have hsp : stripPre name (name ++ 58 :: 34 :: v ++ 34 :: suf)
        = some (58 :: 34 :: (v ++ 34 :: suf)) := by
      rw [stripPre_eq_some]
      simp
    rw [hsp]
    show hasQuotedValue (v ++ 34 :: suf) = true
    exact (hasQuotedValue_iff _).mpr ⟨v, suf, rfl, hv, hvq⟩

theorem existsTagIn_iff (name l : List Nat) :
    existsTagIn name l = true ↔
      ∃ pre v suf, l = pre ++ name ++ 58 :: 34 :: v ++ 34 :: suf ∧ v ≠ [] ∧
        ∀ c ∈ v, c ≠ 34 := by
  induction l with
  | nil =>
    simp only [existsTagIn]
    constructor
    · intro h; simp at h
    · rintro ⟨pre, v, suf, heq, hv, hvq⟩
      exfalso
      have hlen : ([] : List Nat).length =
          (pre ++ name ++ 58 :: 34 :: v ++ 34 :: suf).length := by rw [heq]
      simp [List.length_append] at hlen
      omega
  | cons c cs ih =>
    simp only [existsTagIn, Bool.or_eq_true]
    constructor
    · rintro (h | h)
      · obtain ⟨v, suf, heq, hv, hvq⟩ := (tagPatMatch_iff name _).mp h
        exact ⟨[], v, suf, by simp [heq], hv, hvq⟩
      · obtain ⟨pre, v, suf, heq, hv, hvq⟩ := ih.mp h
        exact ⟨c :: pre, v, suf, by simp [heq], hv, hvq⟩
    · rintro ⟨pre, v, suf, heq, hv, hvq⟩
      cases pre with
      | nil =>
        left
        rw [(show c :: cs = name ++ 58 :: 34 :: v ++ 34 :: suf by simpa using heq)]
        exact (tagPatMatch_iff name _).mpr ⟨v, suf, rfl, hv, hvq⟩
      | cons p pre' =>
        right
        apply ih.mpr
        refine ⟨pre', v, suf, ?_, hv, hvq⟩
        have hcc : c :: cs = p :: (pre' ++ name ++ 58 :: 34 :: v ++ 34 :: suf) := by
          simpa using heq
        exact (List.cons_eq_cons.mp hcc).2

theorem existsTagIn_extend (name l pre suf : List Nat)
    (h : existsTagIn name l = true) :
    existsTagIn name (pre ++ l ++ suf) = true := by
  obtain ⟨p, v, s, heq, hv, hvq⟩ := (existsTagIn_iff name l).mp h
  apply (existsTagIn_iff name _).mpr
  exact ⟨pre ++ p, v, s ++ suf, by simp [heq], hv, hvq⟩


theorem joinSpace_cons (w : List Nat) (ws : List (List Nat)) (h : ws ≠ []) :
    joinSpace (w :: ws) = w ++ 32 :: joinSpace ws := by
  cases ws with
  | nil => simp at h
  | cons v vs => rfl

theorem joinSpace_append_exists (xs ys : List (List Nat)) :
    ∃ r, joinSpace (xs ++ ys) = joinSpace xs ++ r := by
  induction xs with
  | nil => exact ⟨joinSpace ys, by simp [joinSpace]⟩
  | cons w ws ih =>
    cases hws : ws with
    | nil =>
      cases hys : ys with
      | nil => exact ⟨[], by simp [joinSpace]⟩
      | cons y ys' =>
        refine ⟨32 :: joinSpace (y :: ys'), ?_⟩
        show joinSpace (w :: (y :: ys')) = joinSpace [w] ++ _
        simp [joinSpace]
    | cons v vs =>
      obtain ⟨r, hr⟩ := ih
      refine ⟨r, ?_⟩
      rw [← hws]
      show joinSpace (w :: (ws ++ ys)) = joinSpace (w :: ws) ++ r
      rw [joinSpace_cons w (ws ++ ys) (by simp [hws]),
        joinSpace_cons w ws (by simp [hws]), hr]
      simp

theorem joinSpace_mem_split (s : List Nat) (l : List (List Nat))
    (h : s ∈ l) : ∃ A B, joinSpace l = A ++ s ++ B := by
  induction l with
  | nil => simp at h
  | cons w ws ih =>
    rcases List.mem_cons.mp h with rfl | hmem
    · obtain ⟨r, hr⟩ := joinSpace_append_exists [s] ws
      exact ⟨[], r, by simpa [joinSpace] using hr⟩
    · obtain ⟨A, B, hAB⟩ := ih hmem
      cases ws with
      | nil => simp at hmem
      | cons v vs =>
        refine ⟨w ++ 32 :: A, B, ?_⟩
        rw [joinSpace_cons w (v :: vs) (by simp), hAB]
        simp

theorem idRune_rToLower (c : Nat) (h : idRune c) : idRune (rToLower c) := by
  obtain ⟨h1, h2, h3⟩ := h
  unfold rToLower
  by_cases hu : rIsUpper c = true
  · rw [if_pos hu]
    have hb : 65 ≤ c ∧ c ≤ 90 := by simpa [rIsUpper] using hu
    refine ⟨?_, by omega, by omega⟩
    simp only [rIsSpace, decide_eq_false_iff_not]
    omega
  · rw [if_neg hu]
    exact ⟨h1, h2, h3⟩

theorem idRune_rToUpper (c : Nat) (h : idRune c) : idRune (rToUpper c) := by
  obtain ⟨h1, h2, h3⟩ := h
  unfold rToUpper
  by_cases hu : rIsLower c = true
  · rw [if_pos hu]
    have hb : 97 ≤ c ∧ c ≤ 122 := by simpa [rIsLower] using hu
    refine ⟨?_, by omega, by omega⟩
    simp only [rIsSpace, decide_eq_false_iff_not]
    omega
  · rw [if_neg hu]
    exact ⟨h1, h2, h3⟩

theorem idRune_95 : idRune 95 := by
  refine ⟨by decide, by decide, by decide⟩

theorem snakeAux_ne_nil (prev : Option Nat) (c : Nat) (cs : List Nat) :
    snakeAux prev (c :: cs) ≠ [] := by
  simp only [snakeAux]
  split <;> simp

theorem snakeAux_mem (prev : Option Nat) (l : List Nat)
    (hc : ∀ c ∈ l, idRune c) : ∀ x ∈ snakeAux prev l, idRune x := by
  induction l generalizing prev with
  | nil => intro x hx; simp [snakeAux] at hx
  | cons c cs ih =>
    intro x hx
    have hcid : idRune c := hc c (by simp)
    have ih' := ih (some c) (fun d hd => hc d (by simp [hd]))
    simp only [snakeAux] at hx
    split at hx
    · rcases List.mem_cons.mp hx with rfl | hx'
      · exact idRune_95
      · rcases List.mem_cons.mp hx' with rfl | hx''
        · exact idRune_rToLower c hcid
        · exact ih' x hx''
    · rcases List.mem_cons.mp hx with rfl | hx'
      · exact idRune_rToLower c hcid
      · exact ih' x hx'


theorem goodId_ToSnake (l : List Nat) (h : goodId l) : goodId (ToSnake l) := by
  obtain ⟨hne, hc⟩ := h
  cases l with
  | nil => simp at hne
  | cons c cs =>
    exact ⟨snakeAux_ne_nil none c cs, snakeAux_mem none (c :: cs) hc⟩

theorem camelLower_length (l : List Nat) : (camelLower l).length = l.length := by
  induction l with
  | nil => rfl
  | cons c cs ih =>
    simp only [camelLower]
    split <;> simp [ih]

theorem camelLower_mem (l : List Nat) (hc : ∀ c ∈ l, idRune c) :
    ∀ x ∈ camelLower l, idRune x := by
  induction l with
  | nil => intro x hx; simp [camelLower] at hx
  | cons c cs ih =>
    intro x hx
    simp only [camelLower] at hx
    split at hx
    · exact hc x hx
    · rcases List.mem_cons.mp hx with rfl | hx'
      · exact idRune_rToLower c (hc c (by simp))
      · exact ih (fun d hd => hc d (by simp [hd])) x hx'

theorem mapUpperAt_length (n : Nat) (l : List Nat) :
    (mapUpperAt n l).length = l.length := by
  induction l generalizing n with
  | nil => cases n <;> rfl
  | cons c cs ih =>
    cases n with
    | zero => simp [mapUpperAt]
    | succ m => simp [mapUpperAt, ih]

theorem mapUpperAt_mem (n : Nat) (l : List Nat) (hc : ∀ c ∈ l, idRune c) :
    ∀ x ∈ mapUpperAt n l, idRune x := by
  induction l generalizing n with
  | nil => intro x hx; simp [mapUpperAt] at hx
  | cons c cs ih =>
    intro x hx
    cases n with
    | zero =>
      simp only [mapUpperAt] at hx
      rcases List.mem_cons.mp hx with rfl | hx'
      · exact idRune_rToUpper c (hc c (by simp))
      · exact hc x (by simp [hx'])
    | succ m =>
      simp only [mapUpperAt] at hx
      rcases List.mem_cons.mp hx with rfl | hx'
      · exact hc x (by simp)
      · exact ih m (fun d hd => hc d (by simp [hd])) x hx'

theorem firstLowerIdx_le (l : List Nat) : firstLowerIdx l ≤ l.length := by
  induction l with
  | nil => simp [firstLowerIdx]
  | cons c cs ih =>
    simp only [firstLowerIdx]
    split
    · simp
    · simpa using Nat.succ_le_succ ih

theorem firstLowerIdx_pos (c : Nat) (cs : List Nat) (h : rIsLower c = false) :
    firstLowerIdx (c :: cs) = firstLowerIdx cs + 1 := by
  simp [firstLowerIdx, h]

theorem goodId_ToCamel (l : List Nat) (h : goodId l)
    (hu : rIsUpper (l.headD 0) = true) : goodId (ToCamel l) := by
  obtain ⟨hne, hc⟩ := h
  cases l with
  | nil => simp at hne
  | cons c cs =>
    have hcl : rIsLower c = false := by
      have := hu
      simp only [List.headD_cons] at this
      simp only [rIsUpper, decide_eq_true_eq] at this
      simp only [rIsLower, decide_eq_false_iff_not]
      omega
    have hidx : firstLowerIdx (c :: cs) = firstLowerIdx cs + 1 :=
      firstLowerIdx_pos c cs hcl
    unfold ToCamel
    split
    · rw [if_neg (by omega)]
      have hlen : (mapUpperAt (firstLowerIdx (c :: cs) - 1)
          (camelLower (c :: cs))).length = (c :: cs).length := by
        rw [mapUpperAt_length, camelLower_length]
      constructor
      · intro hnil
        rw [hnil] at hlen
        simp at hlen
      · exact mapUpperAt_mem _ _ (camelLower_mem _ hc)
    · constructor
      · intro hnil
        have := camelLower_length (c :: cs)
        rw [hnil] at this
        simp at this
      · exact camelLower_mem _ hc


theorem omitempty_chars : ∀ c ∈ str ",omitempty", idRune c ∧ c ≠ 58 := by
  decide

theorem goFmtSegment_shape (tagName value : List Nat) (om : Bool) :
    goFmtSegment tagName value om
      = tagName ++ [58, 34] ++ value ++
          (if om then str ",omitempty" else []) ++ [34] := by
  simp [goFmtSegment]

theorem wfSeg_goFmtSegment (tagName value : List Nat) (om : Bool)
    (ht : goodId tagName) (hv : ∀ c ∈ value, idRune c) :
    wfSeg (goFmtSegment tagName value om) := by
  obtain ⟨htne, htc⟩ := ht
  constructor
  · cases tagName with
    | nil => simp at htne
    | cons a as => simp [goFmtSegment]
  · intro c hc
    rw [goFmtSegment_shape] at hc
    rcases List.mem_append.mp hc with h1 | h1
    swap
    · simp only [List.mem_singleton] at h1
      subst h1; exact ⟨by decide, by decide⟩
    rcases List.mem_append.mp h1 with h2 | h2
    swap
    · cases om with
      | false => simp at h2
      | true =>
        have := (omitempty_chars c (by simpa using h2)).1
        exact ⟨this.1, this.2.2⟩
    rcases List.mem_append.mp h2 with h3 | h3
    swap
    · exact ⟨(hv c h3).1, (hv c h3).2.2⟩
    rcases List.mem_append.mp h3 with h4 | h4
    · exact ⟨(htc c h4).1, (htc c h4).2.2⟩
    · rcases (by simpa using h4 : c = 58 ∨ c = 34) with rfl | rfl
      · exact ⟨by decide, by decide⟩
      · exact ⟨by decide, by decide⟩

theorem existsTagIn_of_fmt (name value X Y : List Nat) (om : Bool)
    (hv : om = false → value ≠ []) (hq : ∀ c ∈ value, c ≠ 34) :
    existsTagIn name (X ++ goFmtSegment name value om ++ Y) = true := by
  apply (existsTagIn_iff name _).mpr
  refine ⟨X, value ++ (if om then str ",omitempty" else []), Y, ?_, ?_, ?_⟩
  · simp [goFmtSegment]
  · cases om with
    | false => simpa using hv rfl
    | true => simp [str]
  · intro c hc
    rcases List.mem_append.mp hc with hc' | hc'
    · exact hq c hc'
    · cases om with
      | false => simp at hc'
      | true =>
        exact (omitempty_chars c (by simpa using hc')).1.2.1

theorem existsTagIn_unwrap (name body : List Nat)
    (hn : ∀ c ∈ name, c ≠ 96)
    (h : existsTagIn name (96 :: body ++ [96]) = true) :
    existsTagIn name body = true := by
  obtain ⟨pre, v, suf, heq, hv, hvq⟩ := (existsTagIn_iff name _).mp h
  cases pre with
  | nil =>
    exfalso
    cases name with
    | nil => simp at heq
    | cons n ns =>
      have h96n : (96 : Nat) = n := by
        simpa using congrArg (fun l => l.headD 0) heq
      exact hn n (by simp) h96n.symm
  | cons p pre' =>
    have htl : body ++ [96] = pre' ++ name ++ 58 :: 34 :: v ++ 34 :: suf := by
      simpa using congrArg List.tail heq
    rcases List.eq_nil_or_concat suf with rfl | ⟨suf', x, rfl⟩
    · exfalso
      have h96 : (body ++ [96]).getLast? = some 96 := List.getLast?_concat _
      have h34 : (pre' ++ name ++ 58 :: 34 :: v ++ [34]).getLast?
          = some 34 := by
        rw [show pre' ++ name ++ 58 :: 34 :: v ++ [34]
            = (pre' ++ name ++ 58 :: 34 :: v) ++ [34] by simp]
        exact List.getLast?_concat _
      rw [htl] at h96
      rw [h34] at h96
      simp at h96
    · simp only [List.concat_eq_append] at htl
      have hx : x = 96 := by
        have h96 : (body ++ [96]).getLast? = some 96 := List.getLast?_concat _
        have hx' : (pre' ++ name ++ 58 :: 34 :: v ++ 34 :: (suf' ++ [x])).getLast?
            = some x := by
          rw [show pre' ++ name ++ 58 :: 34 :: v ++ 34 :: (suf' ++ [x])
              = (pre' ++ name ++ 58 :: 34 :: v ++ 34 :: suf') ++ [x] by simp]
          exact List.getLast?_concat _
        rw [htl] at h96
        rw [hx'] at h96
        exact (by simpa using h96 : some x = some (96 : Nat)) |> Option.some_inj.mp
      have hbody : body = pre' ++ name ++ 58 :: 34 :: v ++ 34 :: suf' := by
        rw [hx] at htl
        rw [show pre' ++ name ++ 58 :: 34 :: v ++ 34 :: (suf' ++ [96])
            = (pre' ++ name ++ 58 :: 34 :: v ++ 34 :: suf') ++ [96] by simp] at htl
        exact List.append_left_injective _ htl
      apply (existsTagIn_iff name body).mpr
      exact ⟨pre', v, suf', hbody, hv, hvq⟩

theorem tagValuesList_eq_nil (fn raw : List Nat) (tags : List TagOpt) (om : Bool)
    (h : ∀ t ∈ tags, existsTagIn t.Tag raw = true) :
    tagValuesList fn raw tags om = [] := by
  unfold tagValuesList
  apply List.filterMap_eq_nil_iff.mpr
  intro t ht
  simp [h t ht]

theorem mem_tagValuesList (fn raw g : List Nat) (tags : List TagOpt) (om : Bool)
    (h : g ∈ tagValuesList fn raw tags om) :
    ∃ t ∈ tags, existsTagIn t.Tag raw = false ∧
      g = goFmtSegment t.Tag (caseName fn t.Case) om := by
  unfold tagValuesList at h
  obtain ⟨t, ht, hg⟩ := List.mem_filterMap.mp h
  by_cases he : existsTagIn t.Tag raw = true
  · simp [he] at hg
  · have he' : existsTagIn t.Tag raw = false := by
      simpa using he
    rw [if_neg (by simp [he'])] at hg
    exact ⟨t, ht, he', (Option.some_inj.mp hg).symm⟩

theorem tagValuesList_mem_of (fn raw : List Nat) (tags : List TagOpt)
    (om : Bool) (t : TagOpt) (ht : t ∈ tags)
    (he : existsTagIn t.Tag raw = false) :
    goFmtSegment t.Tag (caseName fn t.Case) om ∈ tagValuesList fn raw tags om := by
  unfold tagValuesList
  apply List.mem_filterMap.mpr
  exact ⟨t, ht, by simp [he]⟩

theorem caseName_snake (fn : List Nat) : caseName fn case_snake = ToSnake fn := by
  unfold caseName
  rw [if_pos rfl]

theorem caseName_camel (fn : List Nat) : caseName fn case_camel = ToCamel fn := by
  unfold caseName
  rw [if_neg (by decide), if_pos rfl]

theorem caseName_pascal (fn : List Nat) : caseName fn case_pascal = fn := by
  unfold caseName
  rw [if_neg (by decide), if_neg (by decide), if_pos rfl]

theorem caseName_good (fn c : List Nat) (hfn : goodId fn)
    (hu : rIsUpper (fn.headD 0) = true)
    (hc : c = case_snake ∨ c = case_camel ∨ c = case_pascal) :
    caseName fn c ≠ [] ∧ ∀ x ∈ caseName fn c, idRune x := by
  rcases hc with rfl | rfl | rfl
  · rw [caseName_snake]
    exact goodId_ToSnake fn hfn
  · rw [caseName_camel]
    exact goodId_ToCamel fn hfn hu
  · rw [caseName_pascal]
    exact hfn


theorem camelLower_eq (l : List Nat) :
    camelLower l =
      (l.take (firstLowerIdx l)).map rToLower ++ l.drop (firstLowerIdx l) := by
  induction l with
  | nil => simp [camelLower, firstLowerIdx]
  | cons c cs ih =>
    by_cases hc : rIsLower c = true
    · simp [camelLower, firstLowerIdx, hc]
    · have hc' : rIsLower c = false := by simpa using hc
      simp only [camelLower, firstLowerIdx, hc', if_false, Bool.false_eq_true]
      rw [ih]
      simp

theorem mapUpperAt_eq (j : Nat) (l : List Nat) (hj : j < l.length) :
    mapUpperAt j l = l.take j ++ rToUpper (l.getD j 0) :: l.drop (j + 1) := by
  induction l generalizing j with
  | nil => simp at hj
  | cons c cs ih =>
    cases j with
    | zero => simp [mapUpperAt]
    | succ m =>
      simp only [mapUpperAt]
      rw [ih m (by simpa using hj)]
      simp [List.getD_cons_succ]

theorem firstLowerIdx_ge_one (c : Nat) (cs : List Nat)
    (h : rIsLower c = false) : 1 ≤ firstLowerIdx (c :: cs) := by
  rw [firstLowerIdx_pos c cs h]
  omega

/-- C8 (amended): for every non-empty identifier that does not begin with a
lower-case letter, `ToCamel` lower-cases the leading run of non-lower-case
runes (up to the first lower-case rune); when that run has length exactly 1
or spans the whole identifier no further adjustment is made; otherwise the
last rune of the run — the one immediately before the first lower-case
rune — is re-upper-cased. -/
theorem c8_camel_boundary_amended (l : List Nat) (hne : l ≠ [])
    (hlow : rIsLower (l.headD 0) = false) :
    ToCamel l = camelRunAmended l := by
  have hge1 : 1 ≤ firstLowerIdx l := by
    cases l with
    | nil => simp at hne
    | cons c cs => exact firstLowerIdx_ge_one c cs (by simpa using hlow)
  have hle : firstLowerIdx l ≤ l.length := firstLowerIdx_le l
  unfold ToCamel camelRunAmended
  by_cases h : firstLowerIdx l = 1 ∨ firstLowerIdx l = l.length
  · rw [if_neg (by tauto), if_pos h]
    exact camelLower_eq l
  · push_neg at h
    rw [if_pos (by tauto), if_neg (by omega),
      if_neg (by tauto)]
    have hlt : firstLowerIdx l < l.length := by omega
    have hcl : (camelLower l).length = l.length := camelLower_length l
    rw [mapUpperAt_eq (firstLowerIdx l - 1) (camelLower l) (by omega)]
    rw [camelLower_eq l]
    have htakelen : ((l.take (firstLowerIdx l)).map rToLower).length
        = firstLowerIdx l := by
      simp [List.length_take, Nat.min_eq_left hle]
    congr 1
    · -- take (i-1) of the appended list = map rToLower (take (i-1) l)
      rw [List.take_append_of_le_length (by omega)]
      rw [← List.map_take, List.take_take, Nat.min_eq_left (by omega)]
    · congr 1
      · -- getD (i-1) of the appended list
        congr 1
        rw [List.getD_append _ _ _ _ (by omega)]
        rw [List.getD_eq_getElem?_getD, List.getD_eq_getElem?_getD,
          List.getElem?_map, List.getElem?_take_of_lt (by omega)]
        cases l[firstLowerIdx l - 1]? with
        | none => rfl
        | some a => rfl
      · -- drop i of appended list = drop i of l
        have hi : firstLowerIdx l - 1 + 1 = firstLowerIdx l := by omega
        rw [hi]
        rw [List.drop_append_of_le_length (by omega)]
        rw [List.drop_eq_nil_of_le (by omega)]
        simp


theorem joinSpace_chars (l : List (List Nat)) :
    ∀ c ∈ joinSpace l, c = 32 ∨ ∃ s ∈ l, c ∈ s := by
  induction l with
  | nil => simp [joinSpace]
  | cons w ws ih =>
    intro c hc
    cases ws with
    | nil =>
      right
      exact ⟨w, by simp, by simpa [joinSpace] using hc⟩
    | cons v vs =>
      rw [joinSpace_cons w (v :: vs) (by simp)] at hc
      rcases List.mem_append.mp hc with h | h
      · right; exact ⟨w, by simp, h⟩
      · rcases List.mem_cons.mp h with rfl | h'
        · left; rfl
        · rcases ih c h' with h32 | ⟨s, hs, hcs⟩
          · left; exact h32
          · right; exact ⟨s, by simp [hs], hcs⟩

theorem parseTags_second_run (fn raw : List Nat) (tags : List TagOpt) (om : Bool)
    (hfn : goodId fn) (hfnu : rIsUpper (fn.headD 0) = true)
    (htags : ∀ t ∈ tags, goodId t.Tag ∧
      (t.Case = case_snake ∨ t.Case = case_camel ∨ t.Case = case_pascal))
    (hwf : ∀ s ∈ goFields (trimTicks raw), wfSeg s)
    (hpersist : ∀ t ∈ tags, existsTagIn t.Tag raw = true →
      existsTagIn t.Tag (joinSpace (goFields (trimTicks raw))) = true) :
    parseTags fn (parseTags fn raw tags om) tags om = parseTags fn raw tags om := by
  have hout1 := parseTags_eq fn raw tags om
  have hgwf : ∀ g ∈ tagValuesList fn raw tags om, wfSeg g := by
    intro g hg
    obtain ⟨t, ht, hne, rfl⟩ := mem_tagValuesList fn raw g tags om hg
    exact wfSeg_goFmtSegment _ _ _ (htags t ht).1
      (caseName_good fn t.Case hfn hfnu (htags t ht).2).2
  have hallwf : ∀ s ∈ goFields (trimTicks raw) ++ tagValuesList fn raw tags om,
      wfSeg s := by
    intro s hs
    rcases List.mem_append.mp hs with h | h
    · exact hwf s h
    · exact hgwf s h
  have hbody_ticks : ∀ c ∈ joinSpace
      (goFields (trimTicks raw) ++ tagValuesList fn raw tags om), c ≠ 96 := by
    intro c hc
    rcases joinSpace_chars _ c hc with rfl | ⟨s, hs, hcs⟩
    · decide
    · exact ((hallwf s hs).2 c hcs).2
  have htrim : trimTicks (parseTags fn raw tags om)
      = joinSpace (goFields (trimTicks raw) ++ tagValuesList fn raw tags om) := by
    rw [hout1]
    exact trim_wrap _ hbody_ticks
  have hfields2 : goFields (trimTicks (parseTags fn raw tags om))
      = goFields (trimTicks raw) ++ tagValuesList fn raw tags om := by
    rw [htrim]
    exact fields_join _ (fun s hs => ⟨(hallwf s hs).1,
      fun c hc => ((hallwf s hs).2 c hc).1⟩)
  have hdet : ∀ t ∈ tags,
      existsTagIn t.Tag (parseTags fn raw tags om) = true := by
    intro t ht
    by_cases hfound : existsTagIn t.Tag raw = true
    · have h1 := hpersist t ht hfound
      obtain ⟨r, hr⟩ := joinSpace_append_exists (goFields (trimTicks raw))
        (tagValuesList fn raw tags om)
      have h2 := existsTagIn_extend t.Tag
        (joinSpace (goFields (trimTicks raw))) [96] (r ++ [96]) h1
      have h3 : [96] ++ joinSpace (goFields (trimTicks raw)) ++ (r ++ [96])
          = parseTags fn raw tags om := by
        rw [hout1, hr]
        simp
      rwa [h3] at h2
    · have hfound' : existsTagIn t.Tag raw = false := by simpa using hfound
      have hmem := tagValuesList_mem_of fn raw tags om t ht hfound'
      have hmem' : goFmtSegment t.Tag (caseName fn t.Case) om
          ∈ goFields (trimTicks raw) ++ tagValuesList fn raw tags om :=
        List.mem_append.mpr (Or.inr hmem)
      obtain ⟨A, B, hAB⟩ := joinSpace_mem_split _ _ hmem'
      have h2 := existsTagIn_of_fmt t.Tag (caseName fn t.Case) (96 :: A)
        (B ++ [96]) om
        (fun _ => (caseName_good fn t.Case hfn hfnu (htags t ht).2).1)
        (fun c hc => ((caseName_good fn t.Case hfn hfnu (htags t ht).2).2 c hc).2.1)
      have h3 : (96 :: A) ++ goFmtSegment t.Tag (caseName fn t.Case) om
          ++ (B ++ [96]) = parseTags fn raw tags om := by
        rw [hout1, hAB]
        simp
      rwa [h3] at h2
  have hgens2 : tagValuesList fn (parseTags fn raw tags om) tags om = [] :=
    tagValuesList_eq_nil _ _ _ _ hdet
  rw [parseTags_eq fn (parseTags fn raw tags om) tags om, hgens2, hfields2]
  rw [hout1]
  simp

/-! ### Claim theorems -/

theorem caseName_unknown (fn c : List Nat) (h1 : c ≠ case_snake)
    (h2 : c ≠ case_camel) (h3 : c ≠ case_pascal) : caseName fn c = [] := by
  unfold caseName
  rw [if_neg h1, if_neg h2, if_neg h3]

/-- C1: the claim says a serialization failure leaves the file in its
pre-existing state and that the driver never truncates before a successful
parse-and-serialize cycle.  The code truncates first: `GenerateTags` calls
`os.Create` (line 117), which truncates the file, before `format.Node`
(line 124), and returns without flushing on a serialization error, so the
file is left empty, not with its original content.  (A parse failure does
leave the original content, as the first conjunct of the claim says.) -/
theorem c1_driver_truncates_before_serialize :
    generateTagsWrites true false (str "package main") (str "rendered") = [] ∧
    generateTagsWrites true false (str "package main") (str "rendered")
      ≠ str "package main" ∧
    generateTagsWrites false false (str "package main") (str "rendered")
      = str "package main" := by
  refine ⟨rfl, by decide, rfl⟩

/-- C2, counterexample: for the request `json:bogus` on a field `Name` with
no existing tag, the claim says no segment is generated; the code generates
the empty-value segment `json:""`. -/
theorem c2_unknown_case_counterexample :
    reportsUnknownCase [] ⟨str "json", str "bogus"⟩ = true ∧
    tagValuesList (str "Name") [] [⟨str "json", str "bogus"⟩] false
      = [str "json:\"\""] ∧
    tagValuesList (str "Name") [] [⟨str "json", str "bogus"⟩] false ≠ [] ∧
    parseTags (str "Name") [] [⟨str "json", str "bogus"⟩] false
      = str "`json:\"\"`" := by
  refine ⟨by decide, by decide, by decide, by decide⟩

/-- C2 (amended): for every field and every request whose caseStyle is not
one of snake, camel, or pascal (and whose tag name the regex does not find
in the raw tag), the configuration error is reported, and — instead of the
request being skipped — a segment with an empty generated name
(`name:""`, or `name:",omitempty"` under the modifier flag) is emitted for
it; the other requests of the list are processed unchanged. -/
theorem c2_unknown_case_amended (fn raw : List Nat) (om : Bool)
    (pre post : List TagOpt) (t : TagOpt)
    (hc : t.Case ≠ case_snake ∧ t.Case ≠ case_camel ∧ t.Case ≠ case_pascal)
    (hnf : existsTagIn t.Tag raw = false) :
    reportsUnknownCase raw t = true ∧
    tagValuesList fn raw (pre ++ t :: post) om
      = tagValuesList fn raw pre om ++
          goFmtSegment t.Tag [] om :: tagValuesList fn raw post om := by
  constructor
  · unfold reportsUnknownCase
    simp [hnf, hc.1, hc.2.1, hc.2.2]
  · unfold tagValuesList
    rw [List.filterMap_append]
    congr 1
    simp only [List.filterMap_cons]
    rw [if_neg (by simp [hnf])]
    rw [caseName_unknown fn t.Case hc.1 hc.2.1 hc.2.2]

theorem c2_unknown_case_amended_witness :
    ((str "bogus" ≠ case_snake ∧ str "bogus" ≠ case_camel ∧
      str "bogus" ≠ case_pascal) ∧
     existsTagIn (str "json") [] = false) ∧
    (reportsUnknownCase [] ⟨str "json", str "bogus"⟩ = true ∧
     tagValuesList (str "Name") []
        ([] ++ (⟨str "json", str "bogus"⟩ : TagOpt) :: [⟨str "xml", case_snake⟩])
        false
       = tagValuesList (str "Name") [] [] false ++
           goFmtSegment (str "json") [] false ::
             tagValuesList (str "Name") [] [⟨str "xml", case_snake⟩] false) :=
  ⟨⟨⟨by decide, by decide, by decide⟩, by decide⟩,
    c2_unknown_case_amended (str "Name") [] false [] [⟨str "xml", case_snake⟩]
      ⟨str "json", str "bogus"⟩ ⟨by decide, by decide, by decide⟩ (by decide)⟩

/-- C3, counterexample: in the tree `other [structType [structType []]]`
(a record type nested inside the fields of another record type, itself
under a non-struct node), the inner struct node is a record type of the
tree but is never passed to the Record Rewriter, because the traversal
closure returns `false` on a `StructType` and `ast.Inspect` does not
descend into it. -/
theorem c3_nested_struct_counterexample :
    GoAst.structType []
      ∈ allStructs (GoAst.other [GoAst.structType [GoAst.structType []]]) ∧
    GoAst.structType []
      ∉ inspectStructs (GoAst.other [GoAst.structType [GoAst.structType []]]) := by
  constructor
  · rw [show allStructs (GoAst.other [GoAst.structType [GoAst.structType []]])
        = [GoAst.structType [GoAst.structType []], GoAst.structType []] from rfl]
    exact List.mem_cons.mpr (Or.inr (List.mem_cons.mpr (Or.inl rfl)))
  · rw [show inspectStructs (GoAst.other [GoAst.structType [GoAst.structType []]])
        = [GoAst.structType [GoAst.structType []]] from rfl]
    intro h
    rcases List.mem_cons.mp h with heq | h'
    · exact absurd heq (by simp)
    · simp at h'

mutual

theorem sb_deep : ∀ (d : Nat) (t : GoAst), 1 ≤ d → structsBelow d t = []
  | d, .structType cs, h => by
    have hcs := sbL_deep (d + 1) cs (by omega)
    simp only [structsBelow, hcs]
    simp
    omega
  | d, .other cs, h => sbL_deep d cs h

theorem sbL_deep : ∀ (d : Nat) (ts : List GoAst), 1 ≤ d → structsBelowL d ts = []
  | _, [], _ => by simp [structsBelowL]
  | d, t :: ts, h => by
    simp [structsBelowL, sb_deep d t h, sbL_deep d ts h]

end

mutual

theorem inspect_eq_sb : ∀ t : GoAst, inspectStructs t = structsBelow 0 t
  | .structType cs => by
    simp [inspectStructs, structsBelow, sbL_deep 1 cs (by omega)]
  | .other cs => by
    simp [inspectStructs, structsBelow, inspectL_eq_sbL cs]

theorem inspectL_eq_sbL : ∀ ts : List GoAst, inspectStructsL ts = structsBelowL 0 ts
  | [] => by simp [inspectStructsL, structsBelowL]
  | t :: ts => by
    simp [inspectStructsL, structsBelowL, inspect_eq_sb t, inspectL_eq_sbL ts]

end

/-- C3 (amended): the traversal passes to the Record Rewriter exactly the
record-type nodes at struct-nesting depth zero — every struct node not
nested inside another struct node, including those nested inside function
bodies or other non-struct declarations; struct nodes nested inside the
fields of another struct node are not visited separately. -/
theorem c3_traversal_amended (t : GoAst) :
    inspectStructs t = structsBelow 0 t :=
  inspect_eq_sb t

/-- C7: the case converters return exactly the spec's values on its five
sample inputs (`toPascal` is the `case_pascal` arm of the switch, which
returns the field name unchanged). -/
theorem c7_case_converter_values :
    ToSnake (str "UserID") = str "user_id" ∧
    ToCamel (str "UserID") = str "userID" ∧
    caseName (str "UserID") case_pascal = str "UserID" ∧
    ToSnake (str "ID") = str "id" ∧
    ToCamel (str "APIKey") = str "apiKey" := by
  refine ⟨by decide, by decide, by decide, by decide, by decide⟩


/-- C4, counterexample: with the single request `json:bogus` (an unknown
case style) on field `Name` with no existing tag and the modifier flag
unset, the first run produces `` `json:""` ``; the second run's regex
`json:"[^"]+"` does not match the empty value, so a second `json:""`
segment is appended: applying the synthesizer twice differs from applying
it once. -/
theorem c4_idempotence_counterexample :
    parseTags (str "Name")
        (parseTags (str "Name") [] [⟨str "json", str "bogus"⟩] false)
        [⟨str "json", str "bogus"⟩] false
      ≠ parseTags (str "Name") [] [⟨str "json", str "bogus"⟩] false ∧
    parseTags (str "Name") [] [⟨str "json", str "bogus"⟩] false
      = str "`json:\"\"`" ∧
    parseTags (str "Name")
        (parseTags (str "Name") [] [⟨str "json", str "bogus"⟩] false)
        [⟨str "json", str "bogus"⟩] false
      = str "`json:\"\" json:\"\"`" := by
  refine ⟨by decide, by decide, by decide⟩

/-- C4 (amended): for every eligible field (non-empty identifier of
identifier runes starting with an upper-case letter), every request list
whose tag names are such identifiers and whose case styles are each one of
snake, camel, or pascal, either value of the modifier flag, and every raw
tag that is empty (the remove-all / no-tag case) or a backtick-wrapped
sequence of well-formed space-separated segments, applying the Tag
Synthesizer twice in sequence yields the same raw tag string as applying
it once. -/
theorem c4_idempotence_amended (fn raw : List Nat) (segs : List (List Nat))
    (tags : List TagOpt) (om : Bool)
    (hfn : goodId fn) (hfnu : rIsUpper (fn.headD 0) = true)
    (htags : ∀ t ∈ tags, goodId t.Tag ∧
      (t.Case = case_snake ∨ t.Case = case_camel ∨ t.Case = case_pascal))
    (hraw : raw = [] ∨
      (raw = 96 :: joinSpace segs ++ [96] ∧ ∀ s ∈ segs, wfSeg s)) :
    parseTags fn (parseTags fn raw tags om) tags om
      = parseTags fn raw tags om := by
  rcases hraw with rfl | ⟨rfl, hsegs⟩
  · apply parseTags_second_run fn [] tags om hfn hfnu htags
    · intro s hs
      simp [show goFields (trimTicks []) = [] from rfl] at hs
    · intro t ht h
      simp [show existsTagIn t.Tag ([] : List Nat) = false from rfl] at h
  · have hbody : ∀ c ∈ joinSpace segs, c ≠ 96 := by
      intro c hc
      rcases joinSpace_chars segs c hc with rfl | ⟨s, hs, hcs⟩
      · decide
      · exact ((hsegs s hs).2 c hcs).2
    have htt : trimTicks (96 :: joinSpace segs ++ [96]) = joinSpace segs :=
      trim_wrap _ hbody
    have hff : goFields (trimTicks (96 :: joinSpace segs ++ [96])) = segs := by
      rw [htt]
      exact fields_join segs (fun s hs => ⟨(hsegs s hs).1,
        fun c hc => ((hsegs s hs).2 c hc).1⟩)
    apply parseTags_second_run fn _ tags om hfn hfnu htags
    · rw [hff]
      exact hsegs
    · intro t ht h
      rw [hff]
      exact existsTagIn_unwrap t.Tag (joinSpace segs)
        (fun c hc => (((htags t ht).1).2 c hc).2.2) h

theorem c4_idempotence_amended_witness :
    (goodId (str "UserID") ∧
     rIsUpper ((str "UserID").headD 0) = true ∧
     (∀ t ∈ [(⟨str "json", case_snake⟩ : TagOpt)], goodId t.Tag ∧
       (t.Case = case_snake ∨ t.Case = case_camel ∨ t.Case = case_pascal)) ∧
     (∀ s ∈ [str "xml:\"a\""], wfSeg s)) ∧
    parseTags (str "UserID")
        (parseTags (str "UserID") (96 :: joinSpace [str "xml:\"a\""] ++ [96])
          [⟨str "json", case_snake⟩] false)
        [⟨str "json", case_snake⟩] false
      = parseTags (str "UserID") (96 :: joinSpace [str "xml:\"a\""] ++ [96])
          [⟨str "json", case_snake⟩] false :=
  ⟨⟨by decide, by decide, by decide, by decide⟩,
    c4_idempotence_amended (str "UserID") _ [str "xml:\"a\""]
      [⟨str "json", case_snake⟩] false (by decide) (by decide) (by decide)
      (Or.inr ⟨rfl, by decide⟩)⟩

/-- C5: for a raw tag that is a backtick-wrapped sequence of well-formed
space-separated segments, the synthesized output is exactly the
pre-existing segments, textually unmodified and in their original order,
followed by the generated segments (`tagValuesList`, which walks the
requests in order), re-joined with single spaces and re-wrapped. -/
theorem c5_preserves_existing_segments (fn : List Nat)
    (segs : List (List Nat)) (tags : List TagOpt) (om : Bool)
    (hsegs : ∀ s ∈ segs, wfSeg s) :
    parseTags fn (96 :: joinSpace segs ++ [96]) tags om
      = 96 :: joinSpace (segs ++
          tagValuesList fn (96 :: joinSpace segs ++ [96]) tags om) ++ [96] := by
  rw [parseTags_eq]
  have hbody : ∀ c ∈ joinSpace segs, c ≠ 96 := by
    intro c hc
    rcases joinSpace_chars segs c hc with rfl | ⟨s, hs, hcs⟩
    · decide
    · exact ((hsegs s hs).2 c hcs).2
  rw [trim_wrap _ hbody]
  rw [fields_join segs (fun s hs => ⟨(hsegs s hs).1,
    fun c hc => ((hsegs s hs).2 c hc).1⟩)]

theorem c5_preserves_existing_segments_witness :
    (∀ s ∈ [str "xml:\"y\""], wfSeg s) ∧
    parseTags (str "UserID") (96 :: joinSpace [str "xml:\"y\""] ++ [96])
        [⟨str "bson", case_snake⟩] false
      = 96 :: joinSpace ([str "xml:\"y\""] ++
          tagValuesList (str "UserID") (96 :: joinSpace [str "xml:\"y\""] ++ [96])
            [⟨str "bson", case_snake⟩] false) ++ [96] :=
  ⟨by decide,
    c5_preserves_existing_segments (str "UserID") [str "xml:\"y\""]
      [⟨str "bson", case_snake⟩] false (by decide)⟩

/-- C6: a field whose first identifier begins with a lower-case letter is
returned unmodified by the Record Rewriter's per-field body, for every
request list and either value of the remove-all and modifier flags: its
tag is never assigned, cleared, or rewritten. -/
theorem c6_lowercase_field_untouched (tags : List TagOpt) (remove om : Bool)
    (f : GoField) (n : List Nat) (ns : List (List Nat)) (c : Nat)
    (cs : List Nat) (hnames : f.names = n :: ns) (hn : n = c :: cs)
    (hc : rIsLower c = true) :
    processField tags remove om f = f := by
  obtain ⟨fns, ftag⟩ := f
  simp only at hnames
  subst hnames
  subst hn
  have hcu : rIsUpper c = false := by
    simp only [rIsLower, decide_eq_true_eq] at hc
    simp only [rIsUpper, decide_eq_false_iff_not]
    omega
  simp [processField, hcu]

theorem c6_lowercase_field_untouched_witness :
    ((⟨[str "age"], some (str "`xml:\"u\"`")⟩ : GoField).names
        = str "age" :: [] ∧
     str "age" = 97 :: str "ge" ∧
     rIsLower 97 = true) ∧
    processField [⟨str "json", case_snake⟩] true true
        ⟨[str "age"], some (str "`xml:\"u\"`")⟩
      = ⟨[str "age"], some (str "`xml:\"u\"`")⟩ :=
  ⟨⟨rfl, by decide, by decide⟩,
    c6_lowercase_field_untouched [⟨str "json", case_snake⟩] true true
      ⟨[str "age"], some (str "`xml:\"u\"`")⟩ (str "age") [] 97 (str "ge")
      rfl (by decide) (by decide)⟩


/-- C8, counterexample: on `"APIKey"` the claim's rule (re-upper-case the
character immediately *after* the leading run of upper-case letters) gives
`"apikEy"`, but `ToCamel` gives `"apiKey"` — the code re-upper-cases the
*last* character of the lowered run, not the one after it (consistently
with the spec's own sample value for `toCamel("APIKey")`). -/
theorem c8_boundary_counterexample :
    camelClaimC8 (str "APIKey") = str "apikEy" ∧
    ToCamel (str "APIKey") = str "apiKey" ∧
    camelClaimC8 (str "APIKey") ≠ ToCamel (str "APIKey") := by
  refine ⟨by decide, by decide, by decide⟩

theorem c8_camel_boundary_amended_witness :
    (str "APIKey" ≠ [] ∧ rIsLower ((str "APIKey").headD 0) = false) ∧
    ToCamel (str "APIKey") = camelRunAmended (str "APIKey") :=
  ⟨⟨by decide, by decide⟩,
    c8_camel_boundary_amended (str "APIKey") (by decide) (by decide)⟩

/-- C9: when a request's tag name occurs as a suffix of a longer key in the
existing raw tag (`w ++ name`, e.g. `bjson` for request `json`), the
unanchored regex search finds `name:"..."` inside the longer segment, the
request is treated as already satisfied, and no segment is generated: the
output is just the re-joined existing fields. -/
theorem c9_suffix_key_treated_as_present (fn pre w name v suf c : List Nat)
    (om : Bool) (hv : v ≠ []) (hvq : ∀ x ∈ v, x ≠ 34) :
    existsTagIn name (pre ++ w ++ name ++ 58 :: 34 :: v ++ 34 :: suf) = true ∧
    parseTags fn (pre ++ w ++ name ++ 58 :: 34 :: v ++ 34 :: suf)
        [⟨name, c⟩] om
      = 96 :: joinSpace (goFields (trimTicks
          (pre ++ w ++ name ++ 58 :: 34 :: v ++ 34 :: suf))) ++ [96] := by
  have hfound : existsTagIn name
      (pre ++ w ++ name ++ 58 :: 34 :: v ++ 34 :: suf) = true := by
    apply (existsTagIn_iff _ _).mpr
    exact ⟨pre ++ w, v, suf, by simp, hv, hvq⟩
  refine ⟨hfound, ?_⟩
  rw [parseTags_eq]
  have hnil : tagValuesList fn
      (pre ++ w ++ name ++ 58 :: 34 :: v ++ 34 :: suf) [⟨name, c⟩] om = [] := by
    apply tagValuesList_eq_nil
    intro t ht
    rcases List.mem_singleton.mp ht with rfl
    exact hfound
  rw [hnil]
  simp

theorem c9_suffix_key_witness :
    (str "x" ≠ [] ∧ ∀ a ∈ str "x", a ≠ 34) ∧
    (existsTagIn (str "json")
        ([96] ++ str "b" ++ str "json" ++ 58 :: 34 :: str "x" ++ 34 :: [96])
        = true ∧
     parseTags (str "Name")
        ([96] ++ str "b" ++ str "json" ++ 58 :: 34 :: str "x" ++ 34 :: [96])
        [⟨str "json", case_camel⟩] false
       = 96 :: joinSpace (goFields (trimTicks
           ([96] ++ str "b" ++ str "json" ++ 58 :: 34 :: str "x" ++ 34 :: [96])))
           ++ [96]) :=
  ⟨⟨by decide, by decide⟩,
    c9_suffix_key_treated_as_present (str "Name") [96] (str "b") (str "json")
      (str "x") [96] case_camel false (by decide) (by decide)⟩

/-- C10, counterexample: the claim quantifies over every raw tag in which
the key is present with an empty value, but for `` `json:"" xjson:"v"` ``
the unanchored regex finds `json:"v"` inside the longer key `xjson`, the
request is treated as satisfied, no fresh segment is appended, and the
output keeps a single `json`-keyed segment — refuting the claimed
duplicate. -/
theorem c10_empty_value_counterexample :
    (str "`json:\"\" xjson:\"v\"`"
       = 96 :: (str "json" ++ [58, 34, 34]) ++ 32 :: str "xjson:\"v\"" ++ [96]) ∧
    existsTagIn (str "json") (str "`json:\"\" xjson:\"v\"`") = true ∧
    tagValuesList (str "Name") (str "`json:\"\" xjson:\"v\"`")
        [⟨str "json", case_camel⟩] false = [] ∧
    parseTags (str "Name") (str "`json:\"\" xjson:\"v\"`")
        [⟨str "json", case_camel⟩] false
      = str "`json:\"\" xjson:\"v\"`" := by
  refine ⟨by decide, by decide, by decide, by decide⟩

theorem emptyValueOnly_no_match (name l : List Nat)
    (h : emptyValueOnly name l = true) : existsTagIn name l = false := by
  induction l with
  | nil => rfl
  | cons c cs ih =>
    simp only [emptyValueOnly, Bool.and_eq_true] at h
    obtain ⟨hpos, hrec⟩ := h
    have hrec' := ih hrec
    simp only [existsTagIn, Bool.or_eq_false_iff]
    refine ⟨?_, hrec'⟩
    by_contra hcon
    have hmatch : tagPatMatch name (c :: cs) = true := by
      cases hb : tagPatMatch name (c :: cs)
      · exact absurd hb hcon
      · rfl
    obtain ⟨v, suf, heq, hv, hvq⟩ := (tagPatMatch_iff name _).mp hmatch
    have hsp : stripPre name (c :: cs)
        = some (58 :: 34 :: (v ++ 34 :: suf)) := by
      rw [stripPre_eq_some]
      rw [heq]
      simp
    rw [hsp] at hpos
    cases v with
    | nil => exact hv rfl
    | cons a as =>
      have ha : a = 34 := by simpa using hpos
      exact hvq a (by simp) ha

/-- C10 (amended): for every well-formed raw tag containing the segment
`name:""`, provided the tag name occurs in the raw tag only with empty
values (no position offers `name:"` followed by a non-quote rune,
`emptyValueOnly`), the synthesizer fails to detect the request — the regex
needs at least one rune between the quotes, so the empty-value occurrences
never satisfy it — and appends a freshly generated segment with the same
key after all existing segments: the output contains both the original
`name:""` segment and the fresh `name`-keyed segment. -/
theorem c10_empty_value_amended (fn name c : List Nat)
    (segs : List (List Nat)) (om : Bool)
    (hsegs : ∀ s ∈ segs, wfSeg s)
    (hmem : name ++ [58, 34, 34] ∈ segs)
    (honly : emptyValueOnly name (96 :: joinSpace segs ++ [96]) = true) :
    existsTagIn name (96 :: joinSpace segs ++ [96]) = false ∧
    parseTags fn (96 :: joinSpace segs ++ [96]) [⟨name, c⟩] om
      = 96 :: joinSpace (segs ++ [goFmtSegment name (caseName fn c) om])
          ++ [96] ∧
    name ++ [58, 34, 34]
      ∈ segs ++ [goFmtSegment name (caseName fn c) om] := by
  have hnf := emptyValueOnly_no_match name _ honly
  refine ⟨hnf, ?_, List.mem_append.mpr (Or.inl hmem)⟩
  rw [parseTags_eq]
  have hbody : ∀ x ∈ joinSpace segs, x ≠ 96 := by
    intro x hx
    rcases joinSpace_chars segs x hx with rfl | ⟨s, hs, hxs⟩
    · decide
    · exact ((hsegs s hs).2 x hxs).2
  rw [trim_wrap _ hbody]
  rw [fields_join segs (fun s hs => ⟨(hsegs s hs).1,
    fun x hx => ((hsegs s hs).2 x hx).1⟩)]
  have hgens : tagValuesList fn (96 :: joinSpace segs ++ [96]) [⟨name, c⟩] om
      = [goFmtSegment name (caseName fn c) om] := by
    unfold tagValuesList
    rw [List.filterMap_cons]
    have hnf2 : existsTagIn name (96 :: (joinSpace segs ++ [96])) = false := by
      simpa using hnf
    simp [hnf2]
  rw [hgens]

theorem c10_empty_value_amended_witness :
    ((∀ s ∈ [str "xml:\"y\"", str "json" ++ [58, 34, 34]], wfSeg s) ∧
     str "json" ++ [58, 34, 34]
       ∈ [str "xml:\"y\"", str "json" ++ [58, 34, 34]] ∧
     emptyValueOnly (str "json")
       (96 :: joinSpace [str "xml:\"y\"", str "json" ++ [58, 34, 34]] ++ [96])
       = true) ∧
    (existsTagIn (str "json")
        (96 :: joinSpace [str "xml:\"y\"", str "json" ++ [58, 34, 34]] ++ [96])
        = false ∧
     parseTags (str "UserID")
        (96 :: joinSpace [str "xml:\"y\"", str "json" ++ [58, 34, 34]] ++ [96])
        [⟨str "json", case_camel⟩] false
       = 96 :: joinSpace ([str "xml:\"y\"", str "json" ++ [58, 34, 34]] ++
           [goFmtSegment (str "json") (caseName (str "UserID") case_camel)
             false]) ++ [96] ∧
     str "json" ++ [58, 34, 34]
       ∈ [str "xml:\"y\"", str "json" ++ [58, 34, 34]] ++
           [goFmtSegment (str "json") (caseName (str "UserID") case_camel)
             false]) :=
  ⟨⟨by decide, by decide, by decide⟩,
    c10_empty_value_amended (str "UserID") (str "json") case_camel
      [str "xml:\"y\"", str "json" ++ [58, 34, 34]] false
      (by decide) (by decide) (by decide)⟩


end Easytags
